import Mathlib

/-!
Verification of the Möbius-strip geometry program (`mobius_strip.py`).

The program builds, from a ring radius `R`, a strip width `w` and a
resolution `n`, the parameter grids `u = linspace 0 (2π) n` and
`v = linspace (-w/2) (w/2) n`, a sampled mesh of the half-twist
embedding, and two scalar measurements: a Riemann-sum surface area and a
polyline edge length.  Machine floats are modelled by real numbers; the
`IndexError` that numpy raises when `u[1]` is read on a short grid is
modelled by `Option` (`none` = the exception propagates out of
`__init__`).
-/

noncomputable section

namespace Mobius

/-- Model of `np.linspace a b n`: `n` evenly spaced samples from `a` to `b`
(inclusive).  For `n = 1` numpy returns `[a]`, which the common formula
also yields here because `x / 0 = 0` in `ℝ`. -/
def linspace (a b : ℝ) (n : ℕ) : List ℝ :=
  (List.range n).map (fun i : ℕ => a + (i : ℝ) * (b - a) / ((n : ℝ) - 1))

/-- The method `parametric_equations` (lines 25-39): the half-twist
embedding `(u, v) ↦ (x, y, z)`. -/
def parametric_equations (R u v : ℝ) : ℝ × ℝ × ℝ :=
  ((R + v * Real.cos (u / 2)) * Real.cos u,
   (R + v * Real.cos (u / 2)) * Real.sin u,
   v * Real.sin (u / 2))

/-- The inner helper `partial_derivatives` of `compute_surface_area`
(lines 59-72): the analytic partials `(∂r/∂u, ∂r/∂v)` at a point. -/
def derivs_uv (R u v : ℝ) : (ℝ × ℝ × ℝ) × (ℝ × ℝ × ℝ) :=
  ((-v * Real.sin (u / 2) * Real.cos u / 2
      - (R + v * Real.cos (u / 2)) * Real.sin u,
    -v * Real.sin (u / 2) * Real.sin u / 2
      + (R + v * Real.cos (u / 2)) * Real.cos u,
    v * Real.cos (u / 2) / 2),
   (Real.cos (u / 2) * Real.cos u,
    Real.cos (u / 2) * Real.sin u,
    Real.sin (u / 2)))

/-- The cross product as written at lines 76-80. -/
def cross_product (a b : ℝ × ℝ × ℝ) : ℝ × ℝ × ℝ :=
  (a.2.1 * b.2.2 - a.2.2 * b.2.1,
   a.2.2 * b.1 - a.1 * b.2.2,
   a.1 * b.2.1 - a.2.1 * b.1)

/-- The local area element (line 81): the Euclidean magnitude of the
cross product of the two partials. -/
def area_element (R u v : ℝ) : ℝ :=
  let p := derivs_uv R u v
  let c := cross_product p.1 p.2
  Real.sqrt (c.1 ^ 2 + c.2.1 ^ 2 + c.2.2 ^ 2)

/-- Total (`np.sum`) of an `n×n` array `f(U, V)` with `U[i][j] = u[j]`,
`V[i][j] = v[i]` (the meshgrid layout of line 20). -/
def grid_sum (f : ℝ → ℝ → ℝ) (u v : List ℝ) : ℝ :=
  (v.map (fun vi => (u.map (fun uj => f uj vi)).sum)).sum

/-- The body of `compute_surface_area` (lines 50-86) abstracted over the
stored grids `self.u`, `self.v`.  Reading `u[1]`, `u[0]`, `v[1]`, `v[0]`
(lines 84-85) raises `IndexError` on a grid shorter than 2, hence the
`Option`. -/
def surface_area_on_grids (R : ℝ) (u v : List ℝ) : Option ℝ :=
  match u[1]?, u[0]?, v[1]?, v[0]? with
  | some u1, some u0, some v1, some v0 =>
      some (grid_sum (area_element R) u v * (u1 - u0) * (v1 - v0))
  | _, _, _, _ => none

/-- The method `compute_surface_area` on the grids built by `__init__`
(lines 18-19). -/
def compute_surface_area (R w : ℝ) (n : ℕ) : Option ℝ :=
  surface_area_on_grids R (linspace 0 (2 * Real.pi) n)
    (linspace (-w / 2) (w / 2) n)

/-- The Euclidean distance `sqrt(dx² + dy² + dz²)` between two
consecutive samples (line 104). -/
def dist3 (p q : ℝ × ℝ × ℝ) : ℝ :=
  Real.sqrt ((q.1 - p.1) ^ 2 + (q.2.1 - p.2.1) ^ 2 + (q.2.2 - p.2.2) ^ 2)

/-- Consecutive differences (`np.diff`) plus per-segment Euclidean norms (lines 101-104): the list of
distances between consecutive points of a polyline. -/
def segment_lengths : List (ℝ × ℝ × ℝ) → List ℝ
  | p :: q :: rest => dist3 p q :: segment_lengths (q :: rest)
  | _ => []

/-- One boundary curve (line 99): the mapping sampled over the `u` grid
at a fixed `v`. -/
def edge_curve (R : ℝ) (n : ℕ) (v : ℝ) : List (ℝ × ℝ × ℝ) :=
  (linspace 0 (2 * Real.pi) n).map (fun u => parametric_equations R u v)

/-- The method `compute_edge_length` (lines 88-106): the loop adds the polyline
length at `v = w/2` and then at `v = -w/2`. -/
def compute_edge_length (R w : ℝ) (n : ℕ) : ℝ :=
  (segment_lengths (edge_curve R n (w / 2))).sum
    + (segment_lengths (edge_curve R n (-w / 2))).sum

/-- The method `compute_mesh` (lines 41-48): the three `n×n` coordinate arrays
`x`, `y`, `z` of `parametric_equations(U, V)`, row `i` holding `v i`,
column `j` holding `u j` (meshgrid layout). -/
def compute_mesh (R w : ℝ) (n : ℕ) :
    List (List ℝ) × List (List ℝ) × List (List ℝ) :=
  let u := linspace 0 (2 * Real.pi) n
  let v := linspace (-w / 2) (w / 2) n
  (v.map (fun vi => u.map (fun uj => (parametric_equations R uj vi).1)),
   v.map (fun vi => u.map (fun uj => (parametric_equations R uj vi).2.1)),
   v.map (fun vi => u.map (fun uj => (parametric_equations R uj vi).2.2)))

/-- The state `__init__` (lines 6-23) leaves on a `MobiusStrip`
instance. -/
structure MobiusStrip where
  R : ℝ
  w : ℝ
  n : ℕ
  u : List ℝ
  v : List ℝ
  mesh : List (List ℝ) × List (List ℝ) × List (List ℝ)
  surface_area : ℝ
  edge_length : ℝ

/-- Running `MobiusStrip(R, w, n)`: `__init__` computes the grids, the
mesh, the surface area and the edge length in order; `none` models the
`IndexError` escaping from `compute_surface_area` (line 84) when the
grids are shorter than 2. -/
def mkMobiusStrip (R w : ℝ) (n : ℕ) : Option MobiusStrip :=
  match compute_surface_area R w n with
  | some area =>
      some { R := R, w := w, n := n,
             u := linspace 0 (2 * Real.pi) n,
             v := linspace (-w / 2) (w / 2) n,
             mesh := compute_mesh R w n,
             surface_area := area,
             edge_length := compute_edge_length R w n }
  | none => none

/-! Basic lemmas about the grids and sums. -/

theorem linspace_length (a b : ℝ) (n : ℕ) : (linspace a b n).length = n := by
  simp [linspace]

theorem linspace_getElem? (a b : ℝ) {i n : ℕ} (h : i < n) :
    (linspace a b n)[i]? = some (a + (i : ℝ) * (b - a) / ((n : ℝ) - 1)) := by
  simp [linspace, List.getElem?_map, List.getElem?_range, h]

theorem sum_map_range (f : ℕ → ℝ) (n : ℕ) :
    ((List.range n).map f).sum = ∑ i ∈ Finset.range n, f i := by
  induction n with
  | zero => simp
  | succ k ih =>
      rw [List.range_succ, List.map_append, List.sum_append,
        Finset.sum_range_succ, ih]
      simp

theorem grid_sum_eq_double_sum (f : ℝ → ℝ → ℝ) (a b c d : ℝ) (n m : ℕ) :
    grid_sum f (linspace a b n) (linspace c d m) =
      ∑ i ∈ Finset.range m, ∑ j ∈ Finset.range n,
        f (a + (j : ℝ) * (b - a) / ((n : ℝ) - 1))
          (c + (i : ℝ) * (d - c) / ((m : ℝ) - 1)) := by
  unfold grid_sum linspace
  rw [List.map_map, sum_map_range]
  apply Finset.sum_congr rfl
  intro i _
  simp only [Function.comp_apply]
  rw [List.map_map, sum_map_range]
  rfl

theorem area_element_nonneg (R u v : ℝ) : 0 ≤ area_element R u v :=
  Real.sqrt_nonneg _

theorem grid_sum_nonneg (f : ℝ → ℝ → ℝ) (u v : List ℝ)
    (h : ∀ x y, 0 ≤ f x y) : 0 ≤ grid_sum f u v := by
  apply List.sum_nonneg
  intro s hs
  obtain ⟨vi, _, rfl⟩ := List.mem_map.mp hs
  apply List.sum_nonneg
  intro t ht
  obtain ⟨uj, _, rfl⟩ := List.mem_map.mp ht
  exact h uj vi

/-- For `n ≥ 2` the index reads of lines 84-85 succeed and
`compute_surface_area` returns the grid total times
`Δu = 2π/(n-1)` times `Δv = w/(n-1)`. -/
theorem compute_surface_area_eq (R w : ℝ) (n : ℕ) (h : 2 ≤ n) :
    compute_surface_area R w n =
      some (grid_sum (area_element R) (linspace 0 (2 * Real.pi) n)
          (linspace (-w / 2) (w / 2) n)
        * (2 * Real.pi / ((n : ℝ) - 1)) * (w / ((n : ℝ) - 1))) := by
  have h0 : 0 < n := lt_of_lt_of_le two_pos h
  have h1 : 1 < n := h
  unfold compute_surface_area surface_area_on_grids
  rw [linspace_getElem? 0 (2 * Real.pi) h1, linspace_getElem? 0 (2 * Real.pi) h0,
    linspace_getElem? (-w / 2) (w / 2) h1, linspace_getElem? (-w / 2) (w / 2) h0]
  simp only [Nat.cast_one, Nat.cast_zero]
  congr 2
  · ring
  · ring

/-! Spec-side definitions (transcribed from the spec text, §4.2-§4.3,
to be compared with the code-side definitions above) -/

/-- Spec §4.2: the analytic partials
`∂x/∂u = -v·sin(u/2)·cos(u)/2 - (R+v·cos(u/2))·sin(u)`, `∂y/∂u`
analogous, `∂z/∂u = v·cos(u/2)/2`; `∂x/∂v = cos(u/2)·cos(u)`,
`∂y/∂v = cos(u/2)·sin(u)`, `∂z/∂v = sin(u/2)`. -/
def spec_partials (R u v : ℝ) : (ℝ × ℝ × ℝ) × (ℝ × ℝ × ℝ) :=
  ((-v * Real.sin (u / 2) * Real.cos u / 2
      - (R + v * Real.cos (u / 2)) * Real.sin u,
    -v * Real.sin (u / 2) * Real.sin u / 2
      + (R + v * Real.cos (u / 2)) * Real.cos u,
    v * Real.cos (u / 2) / 2),
   (Real.cos (u / 2) * Real.cos u,
    Real.cos (u / 2) * Real.sin u,
    Real.sin (u / 2)))

/-- Spec §4.2: "the local area element as the magnitude of the cross
product of the partial derivatives ∂(x,y,z)/∂u and ∂(x,y,z)/∂v". -/
def spec_area_element (R u v : ℝ) : ℝ :=
  let a := (spec_partials R u v).1
  let b := (spec_partials R u v).2
  Real.sqrt ((a.2.1 * b.2.2 - a.2.2 * b.2.1) ^ 2
    + (a.2.2 * b.1 - a.1 * b.2.2) ^ 2
    + (a.1 * b.2.1 - a.2.1 * b.1) ^ 2)

/-- Spec §4.2: the area elements at every point of the n×n grid, summed
and multiplied by the uniform grid spacings `Δu = 2π/(n-1)` and
`Δv = w/(n-1)` — a plain Riemann sum. -/
def spec_surface_area (R w : ℝ) (n : ℕ) : ℝ :=
  (∑ i ∈ Finset.range n, ∑ j ∈ Finset.range n,
      spec_area_element R ((j : ℝ) * (2 * Real.pi) / ((n : ℝ) - 1))
        (-(w / 2) + (i : ℝ) * w / ((n : ℝ) - 1)))
    * (2 * Real.pi / ((n : ℝ) - 1)) * (w / ((n : ℝ) - 1))

/-- Spec §4.3: one boundary polyline — the mapping sampled at the `n`
u-grid points at a fixed `v`, with consecutive-point Euclidean distances
summed. -/
def spec_polyline_length (R : ℝ) (n : ℕ) (v : ℝ) : ℝ :=
  ∑ i ∈ Finset.range (n - 1),
    dist3 (parametric_equations R ((i : ℝ) * (2 * Real.pi) / ((n : ℝ) - 1)) v)
      (parametric_equations R (((i : ℝ) + 1) * (2 * Real.pi) / ((n : ℝ) - 1)) v)

/-! Polyline bridge lemmas. -/

theorem segment_lengths_cons₂ (p q : ℝ × ℝ × ℝ) (l : List (ℝ × ℝ × ℝ)) :
    segment_lengths (p :: q :: l) = dist3 p q :: segment_lengths (q :: l) :=
  rfl

theorem segment_sum_range (n : ℕ) (p : ℕ → ℝ × ℝ × ℝ) :
    (segment_lengths ((List.range (n + 1)).map p)).sum
      = ∑ i ∈ Finset.range n, dist3 (p i) (p (i + 1)) := by
  induction n generalizing p with
  | zero => simp [List.range_succ, segment_lengths]
  | succ k ih =>
      have hd : (List.range (k + 1 + 1)).map p
          = p 0 :: (List.range (k + 1)).map (fun j => p (j + 1)) := by
        rw [List.range_succ_eq_map, List.map_cons, List.map_map]
        rfl
      have hd2 : (List.range (k + 1)).map (fun j => p (j + 1))
          = p 1 :: (List.range k).map (fun j => p (j + 1 + 1)) := by
        rw [List.range_succ_eq_map, List.map_cons, List.map_map]
        rfl
      rw [hd, hd2, segment_lengths_cons₂, List.sum_cons, ← hd2,
        ih (fun j => p (j + 1)), Finset.sum_range_succ' (fun i => dist3 (p i) (p (i + 1))) k,
        add_comm]

/-! Symmetry lemmas. -/

theorem cast_pred_sub {m i : ℕ} (h : i < m) :
    ((m - 1 - i : ℕ) : ℝ) = (m : ℝ) - 1 - (i : ℝ) := by
  have h1 : i ≤ m - 1 := Nat.le_sub_one_of_lt h
  have h2 : 1 ≤ m := Nat.one_le_of_lt (Nat.lt_of_le_of_lt (Nat.zero_le i) h)
  push_cast [Nat.cast_sub h1, Nat.cast_sub h2]
  ring

/-- The half-twist identification: the point of the mapping at `(u, -v)`
is the point at `(2π - u, v)` with `y` and `z` negated. -/
theorem parametric_neg_v (R u v : ℝ) :
    parametric_equations R u (-v) =
      ((parametric_equations R (2 * Real.pi - u) v).1,
       -(parametric_equations R (2 * Real.pi - u) v).2.1,
       -(parametric_equations R (2 * Real.pi - u) v).2.2) := by
  unfold parametric_equations
  have h1 : (2 * Real.pi - u) / 2 = Real.pi - u / 2 := by ring
  have h2 : Real.cos (2 * Real.pi - u) = Real.cos u := by
    rw [Real.cos_sub, Real.cos_two_pi, Real.sin_two_pi]; ring
  have h3 : Real.sin (2 * Real.pi - u) = -Real.sin u := by
    rw [Real.sin_sub, Real.cos_two_pi, Real.sin_two_pi]; ring
  rw [h1, Real.cos_pi_sub, Real.sin_pi_sub, h2, h3]
  simp only [Prod.mk.injEq]
  exact ⟨by ring, by ring, by ring⟩

theorem dist3_flip (a b : ℝ × ℝ × ℝ) :
    dist3 (a.1, -a.2.1, -a.2.2) (b.1, -b.2.1, -b.2.2) = dist3 a b := by
  unfold dist3
  congr 1
  ring

theorem dist3_comm (a b : ℝ × ℝ × ℝ) : dist3 a b = dist3 b a := by
  unfold dist3
  congr 1
  ring

theorem dist3_param_congr (R v : ℝ) {x x' y y' : ℝ} (hx : x = x') (hy : y = y') :
    dist3 (parametric_equations R x v) (parametric_equations R y v)
      = dist3 (parametric_equations R x' v) (parametric_equations R y' v) := by
  rw [hx, hy]

/-- Segments of the `v = -w/2` boundary are congruent, via the isometry
`(x, y, z) ↦ (x, -y, -z)`, to reversed segments of the `v = +w/2`
boundary. -/
theorem dist3_param_symm (R v x y : ℝ) :
    dist3 (parametric_equations R x (-v)) (parametric_equations R y (-v))
      = dist3 (parametric_equations R (2 * Real.pi - y) v)
          (parametric_equations R (2 * Real.pi - x) v) := by
  rw [parametric_neg_v R x v, parametric_neg_v R y v,
    dist3_flip (parametric_equations R (2 * Real.pi - x) v)
      (parametric_equations R (2 * Real.pi - y) v),
    dist3_comm]

/-- Negating every entry of `linspace c d n` yields `linspace (-c) (-d) n`. -/
theorem linspace_map_neg (c d : ℝ) (n : ℕ) :
    (linspace c d n).map (fun t => -t) = linspace (-c) (-d) n := by
  unfold linspace
  rw [List.map_map]
  congr 1
  funext i
  simp only [Function.comp_apply]
  ring

/-- Reversing the direction of the `v` grid leaves the grid total
unchanged: `linspace d c n` runs through the same values as
`linspace c d n` in the opposite order. -/
theorem grid_sum_linspace_reflect (f : ℝ → ℝ → ℝ) (u : List ℝ) (c d : ℝ)
    {n : ℕ} (h : 2 ≤ n) :
    grid_sum f u (linspace d c n) = grid_sum f u (linspace c d n) := by
  have hne : (n : ℝ) - 1 ≠ 0 := by
    have h2 : (2 : ℝ) ≤ (n : ℝ) := by exact_mod_cast h
    intro h0
    nlinarith
  unfold grid_sum linspace
  rw [List.map_map, List.map_map, sum_map_range, sum_map_range]
  conv_rhs =>
    rw [← Finset.sum_range_reflect
      (fun i : ℕ => ((fun vi => (u.map (fun uj => f uj vi)).sum) ∘
        fun i : ℕ => c + (i : ℝ) * (d - c) / ((n : ℝ) - 1)) i) n]
  apply Finset.sum_congr rfl
  intro i hi
  have hi' : i < n := Finset.mem_range.mp hi
  simp only [Function.comp_apply]
  have harg : d + (i : ℝ) * (c - d) / ((n : ℝ) - 1)
      = c + ((n - 1 - i : ℕ) : ℝ) * (d - c) / ((n : ℝ) - 1) := by
    rw [cast_pred_sub hi']
    field_simp
    ring
  rw [harg]

/-! Claim theorems. -/

theorem area_element_eq_spec (R u v : ℝ) :
    area_element R u v = spec_area_element R u v := rfl

/-- Claim C1: for every `R`, `w` and every `u`, `v`, the parametric mapping
returns the triple `x = (R + v·cos(u/2))·cos(u)`,
`y = (R + v·cos(u/2))·sin(u)`, `z = v·sin(u/2)`. -/
theorem parametric_equations_correct (R u v : ℝ) :
    parametric_equations R u v =
      ((R + v * Real.cos (u / 2)) * Real.cos u,
       (R + v * Real.cos (u / 2)) * Real.sin u,
       v * Real.sin (u / 2)) := rfl

/-- Claim C2: for every `R`, `w` and every `n ≥ 2`, `compute_surface_area`
returns exactly the plain Riemann sum of the spec: the magnitude of the
cross product of the analytic partials of §4.2, evaluated at every point
of the n×n grid, summed, and multiplied by the uniform grid spacings
`Δu = 2π/(n-1)` and `Δv = w/(n-1)`. -/
theorem compute_surface_area_spec (R w : ℝ) (n : ℕ) (h : 2 ≤ n) :
    compute_surface_area R w n = some (spec_surface_area R w n) := by
  rw [compute_surface_area_eq R w n h, grid_sum_eq_double_sum]
  unfold spec_surface_area
  congr 2
  congr 1
  apply Finset.sum_congr rfl
  intro i _
  apply Finset.sum_congr rfl
  intro j _
  rw [area_element_eq_spec]
  have hu : (0 : ℝ) + (j : ℝ) * (2 * Real.pi - 0) / ((n : ℝ) - 1)
      = (j : ℝ) * (2 * Real.pi) / ((n : ℝ) - 1) := by ring
  have hv : -w / 2 + (i : ℝ) * (w / 2 - -w / 2) / ((n : ℝ) - 1)
      = -(w / 2) + (i : ℝ) * w / ((n : ℝ) - 1) := by ring
  rw [hu, hv]

/-- Witness for C2 at `R = 1`, `w = 1`, `n = 2`. -/
theorem compute_surface_area_spec_witness :
    compute_surface_area 1 1 2 = some (spec_surface_area 1 1 2) :=
  compute_surface_area_spec 1 1 2 (by norm_num)

/-- Claim C3: for every `R`, `w` and every `n ≥ 2`, `compute_edge_length`
returns exactly the sum of the two boundary polyline lengths at
`v = +w/2` and `v = -w/2`, each being the sum of consecutive-point
Euclidean distances of the mapping sampled at the `n` u-grid points. -/
theorem compute_edge_length_spec (R w : ℝ) (n : ℕ) (h : 2 ≤ n) :
    compute_edge_length R w n
      = spec_polyline_length R n (w / 2) + spec_polyline_length R n (-w / 2) := by
  obtain ⟨m, rfl⟩ : ∃ m, n = m + 1 := ⟨n - 1, by omega⟩
  unfold compute_edge_length edge_curve linspace
  rw [List.map_map, List.map_map, segment_sum_range, segment_sum_range]
  unfold spec_polyline_length
  simp only [Nat.add_sub_cancel]
  congr 1
  · apply Finset.sum_congr rfl
    intro i _
    simp only [Function.comp_apply]
    exact dist3_param_congr _ _ (by push_cast; ring) (by push_cast; ring)
  · apply Finset.sum_congr rfl
    intro i _
    simp only [Function.comp_apply]
    exact dist3_param_congr _ _ (by push_cast; ring) (by push_cast; ring)

/-- Witness for C3 at `R = 1`, `w = 1`, `n = 2`. -/
theorem compute_edge_length_spec_witness :
    compute_edge_length 1 1 2
      = spec_polyline_length 1 2 (1 / 2) + spec_polyline_length 1 2 (-1 / 2) :=
  compute_edge_length_spec 1 1 2 (by norm_num)

/-- Claim C4: for every `R`, `w` and every `n ≥ 2`, the parameter grids are
the `n` evenly spaced values over `[0, 2π]` and `[-w/2, w/2]` (length
exactly `n`, `i`-th entries `i·2π/(n-1)` and `-w/2 + i·w/(n-1)`, first
and last entries the interval ends), and the three coordinate grids
`x`, `y`, `z` of the mesh all have shape n×n. -/
theorem grids_and_mesh_shape (R w : ℝ) (n : ℕ) (h : 2 ≤ n) :
    (linspace 0 (2 * Real.pi) n).length = n ∧
    (linspace (-w / 2) (w / 2) n).length = n ∧
    (∀ i, i < n → (linspace 0 (2 * Real.pi) n)[i]?
        = some ((i : ℝ) * (2 * Real.pi) / ((n : ℝ) - 1))) ∧
    (∀ i, i < n → (linspace (-w / 2) (w / 2) n)[i]?
        = some (-w / 2 + (i : ℝ) * w / ((n : ℝ) - 1))) ∧
    (linspace 0 (2 * Real.pi) n)[0]? = some 0 ∧
    (linspace 0 (2 * Real.pi) n)[n - 1]? = some (2 * Real.pi) ∧
    (linspace (-w / 2) (w / 2) n)[0]? = some (-w / 2) ∧
    (linspace (-w / 2) (w / 2) n)[n - 1]? = some (w / 2) ∧
    (compute_mesh R w n).1.length = n ∧
    (∀ row ∈ (compute_mesh R w n).1, row.length = n) ∧
    (compute_mesh R w n).2.1.length = n ∧
    (∀ row ∈ (compute_mesh R w n).2.1, row.length = n) ∧
    (compute_mesh R w n).2.2.length = n ∧
    (∀ row ∈ (compute_mesh R w n).2.2, row.length = n) := by
  have h0 : 0 < n := by omega
  have hpred : n - 1 < n := by omega
  have hne : (n : ℝ) - 1 ≠ 0 := by
    have h2 : (2 : ℝ) ≤ (n : ℝ) := by exact_mod_cast h
    intro h0'
    nlinarith
  have hcast : ((n - 1 : ℕ) : ℝ) = (n : ℝ) - 1 := by
    push_cast [Nat.cast_sub (by omega : 1 ≤ n)]
    ring
  refine ⟨linspace_length _ _ _, linspace_length _ _ _, ?_, ?_, ?_, ?_, ?_, ?_,
    ?_, ?_, ?_, ?_, ?_, ?_⟩
  · intro i hi
    rw [linspace_getElem? 0 (2 * Real.pi) hi]
    congr 1
    ring
  · intro i hi
    rw [linspace_getElem? (-w / 2) (w / 2) hi]
    congr 1
    ring
  · rw [linspace_getElem? 0 (2 * Real.pi) h0]
    congr 1
    norm_num
  · rw [linspace_getElem? 0 (2 * Real.pi) hpred]
    congr 1
    rw [hcast]
    field_simp
  · rw [linspace_getElem? (-w / 2) (w / 2) h0]
    congr 1
    norm_num
  · rw [linspace_getElem? (-w / 2) (w / 2) hpred]
    congr 1
    rw [hcast]
    field_simp
    ring
  · simp [compute_mesh, linspace_length]
  · intro row hrow
    simp only [compute_mesh] at hrow
    obtain ⟨vi, _, rfl⟩ := List.mem_map.mp hrow
    simp [linspace_length]
  · simp [compute_mesh, linspace_length]
  · intro row hrow
    simp only [compute_mesh] at hrow
    obtain ⟨vi, _, rfl⟩ := List.mem_map.mp hrow
    simp [linspace_length]
  · simp [compute_mesh, linspace_length]
  · intro row hrow
    simp only [compute_mesh] at hrow
    obtain ⟨vi, _, rfl⟩ := List.mem_map.mp hrow
    simp [linspace_length]

/-- Witness for C4 at `R = 1`, `w = 2`, `n = 2`. -/
theorem grids_and_mesh_shape_witness :
    (linspace 0 (2 * Real.pi) 2).length = 2 ∧
    (linspace (-2 / 2) (2 / 2) 2).length = 2 ∧
    (∀ i : ℕ, i < 2 → (linspace 0 (2 * Real.pi) 2)[i]?
        = some ((i : ℝ) * (2 * Real.pi) / (((2 : ℕ) : ℝ) - 1))) ∧
    (∀ i : ℕ, i < 2 → (linspace (-2 / 2) (2 / 2) 2)[i]?
        = some (-2 / 2 + (i : ℝ) * 2 / (((2 : ℕ) : ℝ) - 1))) ∧
    (linspace 0 (2 * Real.pi) 2)[0]? = some 0 ∧
    (linspace 0 (2 * Real.pi) 2)[2 - 1]? = some (2 * Real.pi) ∧
    (linspace (-2 / 2) (2 / 2) 2)[0]? = some (-2 / 2 : ℝ) ∧
    (linspace (-2 / 2) (2 / 2) 2)[2 - 1]? = some (2 / 2 : ℝ) ∧
    (compute_mesh 1 2 2).1.length = 2 ∧
    (∀ row ∈ (compute_mesh 1 2 2).1, row.length = 2) ∧
    (compute_mesh 1 2 2).2.1.length = 2 ∧
    (∀ row ∈ (compute_mesh 1 2 2).2.1, row.length = 2) ∧
    (compute_mesh 1 2 2).2.2.length = 2 ∧
    (∀ row ∈ (compute_mesh 1 2 2).2.2, row.length = 2) :=
  grids_and_mesh_shape 1 2 2 (by norm_num)

/-- When `n < 2` the grid read `self.u[1]` at line 84 is out of bounds:
`compute_surface_area` raises (`none`) instead of returning a number. -/
theorem compute_surface_area_none (R w : ℝ) (n : ℕ) (h : n < 2) :
    compute_surface_area R w n = none := by
  have hnone : (linspace 0 (2 * Real.pi) n)[1]? = none := by
    apply List.getElem?_eq_none
    rw [linspace_length]
    omega
  unfold compute_surface_area surface_area_on_grids
  rw [hnone]

/-- Claim C5 counterexample: at the degenerate input `n = 1` (with perfectly
ordinary `R = 5`, `w = 2`), construction does not complete: the
`IndexError` from `self.u[1]` (modelled as `none`) escapes `__init__`. -/
theorem construction_fails_on_small_n : mkMobiusStrip 5 2 1 = none := by
  unfold mkMobiusStrip
  rw [compute_surface_area_none 5 2 1 (by norm_num)]

/-- Claim C5 amended: construction completes exactly when `n ≥ 2`; for `w ≤ 0`
or `R ≤ 0` (any real `R`, `w`) the degenerate values silently propagate
into the numeric results, but for `n < 2` the out-of-bounds grid read at
line 84 raises an `IndexError` instead of completing. -/
theorem mkMobiusStrip_isSome_iff (R w : ℝ) (n : ℕ) :
    (mkMobiusStrip R w n).isSome ↔ 2 ≤ n := by
  unfold mkMobiusStrip
  rcases le_or_lt 2 n with h | h
  · rw [compute_surface_area_eq R w n h]
    simp [h]
  · rw [compute_surface_area_none R w n h]
    simp
    omega

/-- Claim C6 counterexample: at `R = 1`, `v = 1`, the `x` coordinates of the
mapping at `u = 0` and `u = 2π` (same `v`) do not coincide: `x(0, 1) = 2`
while `x(2π, 1) = 0`. -/
theorem parametric_u0_u2pi_x_differs :
    (parametric_equations 1 (2 * Real.pi) 1).1 ≠ (parametric_equations 1 0 1).1 := by
  unfold parametric_equations
  have h1 : 2 * Real.pi / 2 = Real.pi := by ring
  rw [h1]
  simp [Real.cos_pi, Real.cos_two_pi]
  norm_num

/-- Claim C6 amended: at `u = 2π` the mapping returns to the `u = 0` point with
`v` negated (`(x,y,z)(2π, v) = (x,y,z)(0, -v)`, all three coordinates);
the `y` and `z` coordinates also coincide at the same `v` (both boundary
samples lie at `y = z = 0`), but the `x` coordinates coincide only after
the half-twist sign flip of `v`. -/
theorem parametric_u2pi_halftwist (R v : ℝ) :
    parametric_equations R (2 * Real.pi) v = parametric_equations R 0 (-v) ∧
    (parametric_equations R (2 * Real.pi) v).2.1
      = (parametric_equations R 0 v).2.1 ∧
    (parametric_equations R (2 * Real.pi) v).2.2
      = (parametric_equations R 0 v).2.2 := by
  have h1 : 2 * Real.pi / 2 = Real.pi := by ring
  have h2pi : parametric_equations R (2 * Real.pi) v = (R - v, 0, 0) := by
    unfold parametric_equations
    rw [h1]
    simp only [Real.cos_pi, Real.sin_pi, Real.cos_two_pi, Real.sin_two_pi,
      Prod.mk.injEq]
    refine ⟨by ring, by ring, by ring⟩
  have h0neg : parametric_equations R 0 (-v) = (R - v, 0, 0) := by
    unfold parametric_equations
    simp only [Real.cos_zero, Real.sin_zero, zero_div, Prod.mk.injEq]
    refine ⟨by ring, by ring, by ring⟩
  have h0v : parametric_equations R 0 v = (R + v, 0, 0) := by
    unfold parametric_equations
    simp only [Real.cos_zero, Real.sin_zero, zero_div, Prod.mk.injEq]
    refine ⟨by ring, by ring, by ring⟩
  rw [h2pi, h0neg, h0v]
  exact ⟨rfl, rfl, rfl⟩

/-- Closed form of the area element: the cross product of the two
partials has magnitude `sqrt((v/2)² + (R + v·cos(u/2))²)`. -/
theorem area_element_sq (R u v : ℝ) :
    area_element R u v
      = Real.sqrt ((v / 2) ^ 2 + (R + v * Real.cos (u / 2)) ^ 2) := by
  unfold area_element derivs_uv cross_product
  simp only []
  congr 1
  have h1 := Real.sin_sq_add_cos_sq u
  have h2 := Real.sin_sq_add_cos_sq (u / 2)
  set s := Real.sin u
  set c := Real.cos u
  set s2 := Real.sin (u / 2)
  set c2 := Real.cos (u / 2)
  set A := R + v * c2 with hA
  linear_combination (A ^ 2 * s2 ^ 2 + (v / 2) ^ 2 + 2 * (v / 2) ^ 2 * (s2 ^ 2 + c2 ^ 2 - 1) + (v / 2) ^ 2 * (s2 ^ 2 + c2 ^ 2 - 1) ^ 2 + 2 * A ^ 2 * c2 ^ 2 + A ^ 2 * c2 ^ 2 * (s ^ 2 + c ^ 2 - 1)) * h1 + (A ^ 2 + 2 * (v / 2) ^ 2 + (v / 2) ^ 2 * (s2 ^ 2 + c2 ^ 2 - 1)) * h2

theorem area_element_pos {R v : ℝ} (u : ℝ) (h : |v| < R) :
    0 < area_element R u v := by
  rw [area_element_sq]
  apply Real.sqrt_pos.mpr
  have hc : |Real.cos (u / 2)| ≤ 1 := Real.abs_cos_le_one _
  have h1 : |v * Real.cos (u / 2)| ≤ |v| := by
    rw [abs_mul]
    nlinarith [abs_nonneg v]
  have h2 := neg_abs_le (v * Real.cos (u / 2))
  have h3 : 0 < R + v * Real.cos (u / 2) := by nlinarith
  positivity

/-- Evaluation of `surface_area_on_grids` on any pair of `n`-point
linspace grids, `n ≥ 2`. -/
theorem surface_area_on_linspaces (R a b c d : ℝ) (n : ℕ) (h : 2 ≤ n) :
    surface_area_on_grids R (linspace a b n) (linspace c d n)
      = some (grid_sum (area_element R) (linspace a b n) (linspace c d n)
          * ((b - a) / ((n : ℝ) - 1)) * ((d - c) / ((n : ℝ) - 1))) := by
  have h0 : 0 < n := by omega
  have h1 : 1 < n := h
  unfold surface_area_on_grids
  rw [linspace_getElem? a b h1, linspace_getElem? a b h0,
    linspace_getElem? c d h1, linspace_getElem? c d h0]
  simp only [Nat.cast_one, Nat.cast_zero]
  congr 2
  · ring
  · ring

/-- Running the area computation with every `v` grid entry negated
evaluates to the negation of the original total: the summed area
elements are unchanged (the negated grid runs through the same values
in reverse order) but the spacing `v[1] - v[0]` flips sign. -/
theorem surface_area_neg_grid_eval (R w : ℝ) (n : ℕ) (h : 2 ≤ n) :
    surface_area_on_grids R (linspace 0 (2 * Real.pi) n)
        ((linspace (-w / 2) (w / 2) n).map (fun t => -t))
      = some (-(grid_sum (area_element R) (linspace 0 (2 * Real.pi) n)
            (linspace (-w / 2) (w / 2) n)
          * (2 * Real.pi / ((n : ℝ) - 1)) * (w / ((n : ℝ) - 1)))) := by
  rw [linspace_map_neg]
  rw [show -(-w / 2) = (w / 2 : ℝ) from by ring]
  rw [show -(w / 2) = (-w / 2 : ℝ) from by ring]
  rw [surface_area_on_linspaces R 0 (2 * Real.pi) (w / 2) (-w / 2) n h]
  rw [grid_sum_linspace_reflect (area_element R) (linspace 0 (2 * Real.pi) n)
    (-w / 2) (w / 2) h]
  congr 1
  ring

/-- On the strip's own symmetric grid (`0 < w`, `w/2 < R`) every area
element is strictly positive, hence so is the grid total. -/
theorem grid_sum_area_pos (R w : ℝ) (n : ℕ) (h : 2 ≤ n) (hw : 0 < w)
    (hR : w / 2 < R) :
    0 < grid_sum (area_element R) (linspace 0 (2 * Real.pi) n)
        (linspace (-w / 2) (w / 2) n) := by
  have hn1 : (0 : ℝ) < (n : ℝ) - 1 := by
    have h2 : (2 : ℝ) ≤ (n : ℝ) := by exact_mod_cast h
    linarith
  rw [grid_sum_eq_double_sum]
  apply Finset.sum_pos
  · intro i hi
    apply Finset.sum_pos
    · intro j _
      apply area_element_pos
      have hin : (i : ℝ) ≤ (n : ℝ) - 1 := by
        have hi' : ((i : ℝ) + 1) ≤ (n : ℝ) := by
          exact_mod_cast Finset.mem_range.mp hi
        linarith
      have ht0 : 0 ≤ (i : ℝ) / ((n : ℝ) - 1) :=
        div_nonneg (Nat.cast_nonneg i) (le_of_lt hn1)
      have ht1 : (i : ℝ) / ((n : ℝ) - 1) ≤ 1 := (div_le_one hn1).mpr hin
      have hmid : -w / 2 + (i : ℝ) * (w / 2 - -w / 2) / ((n : ℝ) - 1)
          = -w / 2 + ((i : ℝ) / ((n : ℝ) - 1)) * w := by ring
      rw [hmid, abs_lt]
      constructor
      · nlinarith
      · nlinarith
    · exact Finset.nonempty_range_iff.mpr (by omega)
  · exact Finset.nonempty_range_iff.mpr (by omega)

/-- Claim C7 counterexample: at `R = 5`, `w = 2`, `n = 2`, rerunning
`compute_surface_area` with every `v` grid value replaced by its
negation changes the returned value (it is negated, because the spacing
`v[1] - v[0]` at line 85 flips sign while the summed area elements stay
the same). -/
theorem surface_area_not_vflip_invariant :
    surface_area_on_grids 5 (linspace 0 (2 * Real.pi) 2)
        ((linspace (-2 / 2) (2 / 2) 2).map (fun t => -t))
      ≠ compute_surface_area 5 2 2 := by
  rw [surface_area_neg_grid_eval 5 2 2 (le_refl 2),
    compute_surface_area_eq 5 2 2 (le_refl 2)]
  intro hEq
  rw [Option.some.injEq] at hEq
  have hG : 0 < grid_sum (area_element 5) (linspace 0 (2 * Real.pi) 2)
      (linspace (-2 / 2) (2 / 2) 2) :=
    grid_sum_area_pos 5 2 2 (le_refl 2) (by norm_num) (by norm_num)
  have hX : 0 < grid_sum (area_element 5) (linspace 0 (2 * Real.pi) 2)
      (linspace (-2 / 2) (2 / 2) 2)
      * (2 * Real.pi / (((2 : ℕ) : ℝ) - 1)) * (2 / (((2 : ℕ) : ℝ) - 1)) := by
    apply mul_pos (mul_pos hG _) _
    · have := Real.pi_pos
      norm_num
      linarith
    · norm_num
  linarith

/-- Claim C7 amended: replacing every `v` grid value by its negation negates
the value returned by the surface-area computation (the summed area
elements are invariant under the flip, but the grid spacing
`Δv = v[1] - v[0]` read at line 85 changes sign); the magnitude, not the
signed value, is invariant. -/
theorem surface_area_vflip_negates (R w : ℝ) (n : ℕ) (h : 2 ≤ n) :
    surface_area_on_grids R (linspace 0 (2 * Real.pi) n)
        ((linspace (-w / 2) (w / 2) n).map (fun t => -t))
      = Option.map (fun s => -s) (compute_surface_area R w n) := by
  rw [surface_area_neg_grid_eval R w n h, compute_surface_area_eq R w n h]
  rfl

/-- Witness for the amended C7 at `R = 1`, `w = 1`, `n = 2`. -/
theorem surface_area_vflip_negates_witness :
    surface_area_on_grids 1 (linspace 0 (2 * Real.pi) 2)
        ((linspace (-1 / 2) (1 / 2) 2).map (fun t => -t))
      = Option.map (fun s => -s) (compute_surface_area 1 1 2) :=
  surface_area_vflip_negates 1 1 2 (by norm_num)

/-- Claim C8: the computation is deterministic in `(R, w, n)`: two
constructions from equal parameters produce equal construction results,
meshes, surface areas and edge lengths. -/
theorem mobius_deterministic (R₁ w₁ : ℝ) (n₁ : ℕ) (R₂ w₂ : ℝ) (n₂ : ℕ)
    (hR : R₁ = R₂) (hw : w₁ = w₂) (hn : n₁ = n₂) :
    mkMobiusStrip R₁ w₁ n₁ = mkMobiusStrip R₂ w₂ n₂ ∧
    compute_mesh R₁ w₁ n₁ = compute_mesh R₂ w₂ n₂ ∧
    compute_surface_area R₁ w₁ n₁ = compute_surface_area R₂ w₂ n₂ ∧
    compute_edge_length R₁ w₁ n₁ = compute_edge_length R₂ w₂ n₂ := by
  subst hR hw hn
  exact ⟨rfl, rfl, rfl, rfl⟩

/-- Witness for C8 at `(R, w, n) = (1, 2, 3)`. -/
theorem mobius_deterministic_witness :
    mkMobiusStrip 1 2 3 = mkMobiusStrip 1 2 3 ∧
    compute_mesh 1 2 3 = compute_mesh 1 2 3 ∧
    compute_surface_area 1 2 3 = compute_surface_area 1 2 3 ∧
    compute_edge_length 1 2 3 = compute_edge_length 1 2 3 :=
  mobius_deterministic 1 2 3 1 2 3 rfl rfl rfl

/-- Claim C9: for every `R`, `w > 0` and `n ≥ 2`, `compute_surface_area`
returns a value and it is nonnegative: the spacings `Δu = 2π/(n-1)` and
`Δv = w/(n-1)` are positive and every area element is a Euclidean norm. -/
theorem compute_surface_area_nonneg (R w : ℝ) (n : ℕ) (hn : 2 ≤ n)
    (hw : 0 < w) :
    ∃ a, compute_surface_area R w n = some a ∧ 0 ≤ a := by
  refine ⟨_, compute_surface_area_eq R w n hn, ?_⟩
  have hn1 : (0 : ℝ) < (n : ℝ) - 1 := by
    have h2 : (2 : ℝ) ≤ (n : ℝ) := by exact_mod_cast hn
    linarith
  have hG : 0 ≤ grid_sum (area_element R) (linspace 0 (2 * Real.pi) n)
      (linspace (-w / 2) (w / 2) n) :=
    grid_sum_nonneg _ _ _ (fun x y => area_element_nonneg R x y)
  have hdu : 0 ≤ 2 * Real.pi / ((n : ℝ) - 1) :=
    div_nonneg (by positivity) (le_of_lt hn1)
  have hdv : 0 ≤ w / ((n : ℝ) - 1) := div_nonneg (le_of_lt hw) (le_of_lt hn1)
  exact mul_nonneg (mul_nonneg hG hdu) hdv

/-- Witness for C9 at `R = 1`, `w = 2`, `n = 2`. -/
theorem compute_surface_area_nonneg_witness :
    ∃ a, compute_surface_area 1 2 2 = some a ∧ 0 ≤ a :=
  compute_surface_area_nonneg 1 2 2 (by norm_num) (by norm_num)

/-- Claim C10: the two boundary polylines summed by `compute_edge_length` have
equal length — the curve at `v = -w/2` is the image of the reversed
curve at `v = +w/2` under the isometry `(x,y,z) ↦ (x,-y,-z)` on the
uniform `u` grid — so the returned edge length is twice the polyline
length of either single boundary. -/
theorem edge_polylines_equal (R w : ℝ) (n : ℕ) (h : 2 ≤ n) :
    (segment_lengths (edge_curve R n (-w / 2))).sum
        = (segment_lengths (edge_curve R n (w / 2))).sum ∧
    compute_edge_length R w n
        = 2 * (segment_lengths (edge_curve R n (w / 2))).sum := by
  have key : (segment_lengths (edge_curve R n (-w / 2))).sum
      = (segment_lengths (edge_curve R n (w / 2))).sum := by
    obtain ⟨m, rfl⟩ : ∃ m, n = m + 1 := ⟨n - 1, by omega⟩
    have hm : 1 ≤ m := by omega
    have hmne : (m : ℝ) ≠ 0 := Nat.cast_ne_zero.mpr (by omega)
    rw [show -w / 2 = -(w / 2) from by ring]
    unfold edge_curve linspace
    rw [List.map_map, List.map_map, segment_sum_range, segment_sum_range]
    have hcast : ((m + 1 : ℕ) : ℝ) - 1 = (m : ℝ) := by push_cast; ring
    rw [hcast]
    conv_rhs => rw [← Finset.sum_range_reflect]
    apply Finset.sum_congr rfl
    intro i hi
    have hi' : i < m := Finset.mem_range.mp hi
    simp only [Function.comp_apply]
    rw [dist3_param_symm]
    apply dist3_param_congr
    · rw [cast_pred_sub hi']
      push_cast
      field_simp
      ring
    · have hs : m - 1 - i + 1 = m - i := by omega
      rw [hs]
      have hmi : ((m - i : ℕ) : ℝ) = (m : ℝ) - (i : ℝ) := by
        push_cast [Nat.cast_sub (le_of_lt hi')]
        ring
      rw [hmi]
      field_simp
      ring
  refine ⟨key, ?_⟩
  unfold compute_edge_length
  rw [key]
  ring

/-- Witness for C10 at `R = 1`, `w = 2`, `n = 2`. -/
theorem edge_polylines_equal_witness :
    (segment_lengths (edge_curve 1 2 (-2 / 2))).sum
        = (segment_lengths (edge_curve 1 2 (2 / 2))).sum ∧
    compute_edge_length 1 2 2
        = 2 * (segment_lengths (edge_curve 1 2 (2 / 2))).sum :=
  edge_polylines_equal 1 2 2 (by norm_num)

end Mobius

end
